import Mathlib

/-!
Verification of the tagger project-classification and tag-generation engine.

A directory is modelled by the list of file names of its immediate entries,
in filesystem enumeration order (entries that fail to read are skipped by the
source and are therefore absent from the model).  All string case mapping in
the source is applied to ASCII data (extension patterns and DAW names), so
ASCII case mapping is used throughout.
-/

namespace Tagger

/-- ASCII lowercase of a string, character by character. -/
def lowerStr (s : String) : String :=
  String.mk (s.toList.map Char.toLower)

/-- ASCII uppercase of a string, character by character. -/
def upperStr (s : String) : String :=
  String.mk (s.toList.map Char.toUpper)

/-- Embeds Rust str eq_ignore_ascii_case. -/
def eqIgnoreAsciiCase (a b : String) : Bool :=
  lowerStr a == lowerStr b

/-- Boolean list-prefix test, used for substring search. -/
def isPre : List Char → List Char → Bool
  | [], _ => true
  | _ :: _, [] => false
  | a :: as, b :: bs => a == b && isPre as bs

/-- Boolean substring test on character lists: does hay contain needle. -/
def isSub (needle : List Char) : List Char → Bool
  | [] => isPre needle []
  | c :: rest => isPre needle (c :: rest) || isSub needle rest

/-- Characters after the last dot of a character list, if any dot occurs. -/
def extCore : List Char → Option (List Char)
  | [] => none
  | c :: rest =>
    match extCore rest with
    | some e => some e
    | none => if c = '.' then some rest else none

/-- Embeds Rust Path extension on a plain file name: the portion after the
last dot, where a single leading dot marks a hidden file and yields no
extension, and the special names "." and ".." have no extension. -/
def extension (s : String) : Option String :=
  if s = "." ∨ s = ".." then none
  else
    match s.toList with
    | [] => none
    | c :: rest =>
      match extCore (if c = '.' then rest else c :: rest) with
      | none => none
      | some e => some (String.mk e)

/-- Embeds Rust HashSet insert on a list kept duplicate-free in insertion
order: the element is appended unless already present. -/
def insertTag (t : String) (s : List String) : List String :=
  if t ∈ s then s else s ++ [t]

/-- Byte-lexicographic less-or-equal on character lists, mirroring the Ord
instance Rust Vec sort uses on String (UTF-8 byte order agrees with code
point order). -/
def lexLe : List Char → List Char → Bool
  | [], _ => true
  | _ :: _, [] => false
  | a :: as, b :: bs => if a = b then lexLe as bs else decide (a < b)

/-- Lexicographic order on strings used to sort the final tag vector. -/
def strle (a b : String) : Prop :=
  lexLe a.toList b.toList = true

instance : DecidableRel strle := fun a b =>
  inferInstanceAs (Decidable (lexLe a.toList b.toList = true))

/-! Classifier: src/src/project_info.rs, generate_project_type. -/

/-- Marker file names indicating a programming project. -/
def programming_indicators : List String :=
  ["Cargo.toml", "package.json", "setup.py", "pom.xml",
   "build.gradle", "Makefile", "Gemfile", "requirements.txt"]

/-- Marker file names indicating a music production project. -/
def music_production_indicators : List String :=
  ["project.als", "project.flp", "project.logic", "project.rpp",
   "project.studioone"]

/-- Lowercased extensions treated as programming signals by the classifier. -/
def prog_ext_signals : List String :=
  ["rs", "py", "js", "java", "cpp", "c", "cs", "go", "rb", "swift"]

/-- Lowercased extensions treated as music signals by the classifier. -/
def music_ext_signals : List String :=
  ["wav", "mp3", "flac", "ogg", "aiff", "rpp", "flp", "logic", "studioone"]

/-- The entry scan of generate_project_type: walks the listing carrying the
two detection flags, breaking early exactly where the source breaks. -/
def classifyLoop : List String → Bool → Bool → Bool × Bool
  | [], p, m => (p, m)
  | f :: rest, p, m =>
    if f ∈ programming_indicators then (true, m)
    else if f ∈ music_production_indicators then (p, true)
    else
      match extension f with
      | none => classifyLoop rest p m
      | some e =>
        let p2 := p || decide (lowerStr e ∈ prog_ext_signals)
        let m2 := m || decide (lowerStr e ∈ music_ext_signals)
        if p2 && m2 then (p2, m2) else classifyLoop rest p2 m2

/-- Embeds generate_project_type: the final decision checks the programming
flag first, then the music flag. -/
def generate_project_type (l : List String) : String :=
  let r := classifyLoop l false false
  if r.1 then "programming" else if r.2 then "music" else "unknown"

/-- Whether a file name carries an extension from the given signal list,
compared after lowercasing as the classifier does. -/
def hasExtSignal (sigs : List String) (f : String) : Bool :=
  match extension f with
  | none => false
  | some e => decide (lowerStr e ∈ sigs)

/-! Programming tags: src/src/project_info/programming.rs. -/

/-- Language name and extension table of generate_programming_tags. -/
def programming_extensions : List (String × String) :=
  [("rust", "rs"), ("python", "py"), ("javascript", "js"), ("java", "java"),
   ("cpp", "cpp"), ("c", "c"), ("c#", "cs"), ("go", "go"), ("ruby", "rb"),
   ("swift", "swift")]

/-- One entry step of the language-set accumulation. -/
def addLangs (acc : List String) (f : String) : List String :=
  match extension f with
  | none => acc
  | some e =>
    programming_extensions.foldl
      (fun a pr => if eqIgnoreAsciiCase e pr.2 then insertTag pr.1 a else a) acc

/-- The language set accumulated over the listing. -/
def language_set (l : List String) : List String :=
  l.foldl addLangs []

/-- Embeds generate_programming_tags: detected languages, the two fixed
tags, then "rust" forced by a Cargo.toml entry. -/
def generate_programming_tags (l : List String) : List String :=
  language_set l ++ ["cli", "software development"] ++
    (if "Cargo.toml" ∈ l then ["rust"] else [])

/-! Music tags: src/src/project_info/music.rs. -/

/-- Audio format extensions recognized by generate_music_tags. -/
def audio_extensions : List String :=
  ["wav", "mp3", "flac", "ogg", "aiff"]

/-- DAW product names recognized by generate_music_tags, stored lowercase. -/
def daws : List String :=
  ["ableton live", "fl studio", "logic pro", "reaper", "presonus studio one"]

/-- One entry step of the audio-format-set accumulation. -/
def addFormats (acc : List String) (f : String) : List String :=
  match extension f with
  | none => acc
  | some e =>
    audio_extensions.foldl
      (fun a ae => if eqIgnoreAsciiCase e ae then insertTag (upperStr ae) a else a) acc

/-- The audio format set accumulated over the listing. -/
def audio_format_set (l : List String) : List String :=
  l.foldl addFormats []

/-- One entry step of the DAW-set accumulation: a DAW name is inserted as-is
when the lowercased file name contains the lowercased DAW name. -/
def addDaws (acc : List String) (f : String) : List String :=
  daws.foldl
    (fun a d => if isSub (lowerStr d).toList (lowerStr f).toList then insertTag d a else a)
    acc

/-- The DAW set accumulated over the listing. -/
def daw_set (l : List String) : List String :=
  l.foldl addDaws []

/-- Embeds generate_music_tags: audio formats, DAW names, then the two fixed
tags "audio" and "production". -/
def generate_music_tags (l : List String) : List String :=
  audio_format_set l ++ daw_set l ++ ["audio", "production"]

/-! Unknown tags and the dispatching generate_tags. -/

/-- One entry step of generate_unknown_tags: uppercased extension. -/
def addGeneric (acc : List String) (f : String) : List String :=
  match extension f with
  | none => acc
  | some e => insertTag (upperStr e) acc

/-- Embeds generate_unknown_tags. -/
def generate_unknown_tags (l : List String) : List String :=
  l.foldl addGeneric []

/-- The type-dispatched raw tag list before deduplication and sorting. -/
def rawTags (l : List String) (project_type : String) : List String :=
  if project_type = "programming" then generate_programming_tags l
  else if project_type = "music" then generate_music_tags l
  else generate_unknown_tags l

/-- Embeds generate_tags: dispatch on the project type, deduplicate through
a set, and sort the result ascending. -/
def generate_tags (l : List String) (project_type : String) : List String :=
  List.insertionSort strle (rawTags l project_type).dedup

/-! Git push URL lookup: src/src/project_info/programming.rs. -/

/-- Outcome of a successfully spawned external command. -/
structure CmdOutput where
  success : Bool
  stdout : String
  stderr : String

/-- The external world the lookup interacts with: whether a .git entry
exists, the result of the list-remotes command (none when the tool could not
be run at all), and the result of the get-push-url command per remote. -/
structure GitEnv where
  gitDirExists : Bool
  remotesCmd : Option CmdOutput
  pushUrlCmd : String → Option CmdOutput

/-- Newline split of stdout, mirroring Rust str lines: pieces are separated
by a newline, a trailing carriage return is stripped from each piece, and a
final empty piece is dropped. -/
def splitNlAux : List Char → List (List Char)
  | [] => [[]]
  | c :: rest =>
    if c = '\n' then [] :: splitNlAux rest
    else
      match splitNlAux rest with
      | [] => [[c]]
      | p :: ps => (c :: p) :: ps

/-- Rust str lines on a string. -/
def rustLines (s : String) : List String :=
  let pieces := splitNlAux s.toList
  let pieces := if pieces.getLast? = some [] then pieces.dropLast else pieces
  pieces.map (fun p => String.mk (if p.getLast? = some '\r' then p.dropLast else p))

/-- Rust str trim restricted to ASCII whitespace, which is all the source
ever feeds it. -/
def rustTrim (s : String) : String :=
  String.mk (((s.toList.dropWhile Char.isWhitespace).reverse.dropWhile
    Char.isWhitespace).reverse)

/-- Embeds extract_git_push_url: nothing without a .git entry; list the
remotes, take the first, query its push URL, and return the trimmed output
on success; every failure path yields nothing. -/
def extract_git_push_url (env : GitEnv) : Option String :=
  if !env.gitDirExists then none
  else
    match env.remotesCmd with
    | none => none
    | some out =>
      if out.success then
        match rustLines out.stdout with
        | [] => none
        | remote :: _ =>
          match env.pushUrlCmd remote with
          | none => none
          | some o2 =>
            if o2.success then some (rustTrim o2.stdout) else none
      else none

/-! Helper lemmas about the order, the set insertions and the scans. -/

/-- Membership through a set insertion. -/
theorem mem_insertTag {x t : String} {s : List String} :
    x ∈ insertTag t s ↔ x ∈ s ∨ x = t := by
  unfold insertTag
  split_ifs with h
  · constructor
    · exact Or.inl
    · rintro (hx | rfl)
      · exact hx
      · exact h
  · simp [List.mem_append]

/-- Elements of a guarded-insert fold come from the accumulator or from the
inserted images of the iterated list. -/
theorem mem_foldl_guard_insert {β : Type} (g : β → Bool) (h : β → String) :
    ∀ (xs : List β) (acc : List String) (t : String),
      t ∈ xs.foldl (fun a x => if g x then insertTag (h x) a else a) acc →
      t ∈ acc ∨ ∃ x, x ∈ xs ∧ t = h x := by
  intro xs
  induction xs with
  | nil => intro acc t ht; exact Or.inl ht
  | cons x xs ih =>
    intro acc t ht
    rw [List.foldl_cons] at ht
    rcases ih _ t ht with hacc | ⟨y, hy, rfl⟩
    · by_cases hg : g x = true
      · rw [if_pos hg] at hacc
        rcases mem_insertTag.mp hacc with h1 | h1
        · exact Or.inl h1
        · exact Or.inr ⟨x, List.mem_cons_self x xs, h1⟩
      · rw [if_neg hg] at hacc
        exact Or.inl hacc
    · exact Or.inr ⟨y, List.mem_cons_of_mem _ hy, rfl⟩

/-- Elements of a fold whose step only adds elements satisfying Q come from
the accumulator or satisfy Q. -/
theorem mem_foldl_of_step {α : Type} (step : List String → α → List String)
    (Q : String → Prop)
    (hstep : ∀ (acc : List String) (x : α) (t : String), t ∈ step acc x → t ∈ acc ∨ Q t) :
    ∀ (xs : List α) (acc : List String) (t : String),
      t ∈ xs.foldl step acc → t ∈ acc ∨ Q t := by
  intro xs
  induction xs with
  | nil => intro acc t ht; exact Or.inl ht
  | cons x xs ih =>
    intro acc t ht
    rw [List.foldl_cons] at ht
    rcases ih _ t ht with hacc | hQ
    · exact hstep acc x t hacc
    · exact Or.inr hQ

/-- Every element of the audio format set is the uppercasing of one of the
five recognized audio extensions. -/
theorem mem_audio_format_set {l : List String} {t : String}
    (ht : t ∈ audio_format_set l) :
    ∃ ae, ae ∈ audio_extensions ∧ t = upperStr ae := by
  have step : ∀ (acc : List String) (f : String) (s : String), s ∈ addFormats acc f →
      s ∈ acc ∨ ∃ ae, ae ∈ audio_extensions ∧ s = upperStr ae := by
    intro acc f s hs
    unfold addFormats at hs
    cases hx : extension f with
    | none => rw [hx] at hs; exact Or.inl hs
    | some e =>
      rw [hx] at hs
      exact mem_foldl_guard_insert (fun ae => eqIgnoreAsciiCase e ae)
        (fun ae => upperStr ae) audio_extensions acc s hs
  rcases mem_foldl_of_step addFormats _ step l [] t ht with hnil | hq
  · exact absurd hnil (List.not_mem_nil t)
  · exact hq

/-- Every element of the DAW set is one of the five stored DAW names. -/
theorem mem_daw_set {l : List String} {t : String} (ht : t ∈ daw_set l) :
    t ∈ daws := by
  have step : ∀ (acc : List String) (f : String) (s : String), s ∈ addDaws acc f →
      s ∈ acc ∨ s ∈ daws := by
    intro acc f s hs
    unfold addDaws at hs
    rcases mem_foldl_guard_insert
      (fun d => isSub (lowerStr d).toList (lowerStr f).toList)
      (fun d => d) daws acc s hs with h1 | ⟨y, hy, rfl⟩
    · exact Or.inl h1
    · exact Or.inr hy
  rcases mem_foldl_of_step addDaws _ step l [] t ht with hnil | hq
  · exact absurd hnil (List.not_mem_nil t)
  · exact hq

/-- The lexicographic order is total. -/
theorem lexLe_total : ∀ as bs : List Char, lexLe as bs = true ∨ lexLe bs as = true := by
  intro as
  induction as with
  | nil => intro bs; exact Or.inl rfl
  | cons a as ih =>
    intro bs
    cases bs with
    | nil => exact Or.inr rfl
    | cons b bs =>
      by_cases hab : a = b
      · subst hab
        rcases ih bs with h | h
        · exact Or.inl (by simp [lexLe, h])
        · exact Or.inr (by simp [lexLe, h])
      · rcases lt_or_gt_of_ne hab with h | h
        · exact Or.inl (by simp [lexLe, hab, h])
        · exact Or.inr (by simp [lexLe, Ne.symm hab, h])

/-- The lexicographic order is transitive. -/
theorem lexLe_trans : ∀ as bs cs : List Char,
    lexLe as bs = true → lexLe bs cs = true → lexLe as cs = true := by
  intro as
  induction as with
  | nil => intro bs cs _ _; rfl
  | cons a as ih =>
    intro bs cs h1 h2
    cases bs with
    | nil => simp [lexLe] at h1
    | cons b bs =>
      cases cs with
      | nil => simp [lexLe] at h2
      | cons c cs =>
        by_cases hab : a = b
        · subst hab
          by_cases hac : a = c
          · subst hac
            simp only [lexLe, if_pos rfl] at h1 h2 ⊢
            exact ih bs cs h1 h2
          · simp only [lexLe, if_pos rfl] at h1
            simp only [lexLe, if_neg hac] at h2 ⊢
            exact h2
        · by_cases hbc : b = c
          · subst hbc
            simp only [lexLe, if_neg hab] at h1 ⊢
            exact h1
          · simp [lexLe, hab] at h1
            simp [lexLe, hbc] at h2
            have hac : a < c := lt_trans h1 h2
            simp [lexLe, ne_of_lt hac, hac]

/-- The lexicographic order is antisymmetric. -/
theorem lexLe_antisymm : ∀ as bs : List Char,
    lexLe as bs = true → lexLe bs as = true → as = bs := by
  intro as
  induction as with
  | nil =>
    intro bs h1 h2
    cases bs with
    | nil => rfl
    | cons b bs => simp [lexLe] at h2
  | cons a as ih =>
    intro bs h1 h2
    cases bs with
    | nil => simp [lexLe] at h1
    | cons b bs =>
      by_cases hab : a = b
      · subst hab
        simp only [lexLe, if_pos rfl] at h1 h2
        rw [ih bs h1 h2]
      · simp [lexLe, hab] at h1
        simp [lexLe, Ne.symm hab] at h2
        exact absurd h2 (lt_asymm h1)

instance : IsTotal String strle :=
  ⟨fun a b => lexLe_total a.toList b.toList⟩

instance : IsTrans String strle :=
  ⟨fun a b c => lexLe_trans a.toList b.toList c.toList⟩

instance : IsAntisymm String strle :=
  ⟨fun a b h1 h2 => String.toList_inj.mp (lexLe_antisymm _ _ h1 h2)⟩

/-- Membership in the final tag list is membership in the raw dispatch. -/
theorem mem_generate_tags {x : String} {l : List String} {pt : String} :
    x ∈ generate_tags l pt ↔ x ∈ rawTags l pt := by
  unfold generate_tags
  rw [(List.perm_insertionSort strle _).mem_iff, List.mem_dedup]

/-- Reaching a programming marker with no earlier music marker sets the
programming flag, whatever flags the scan carries. -/
theorem classifyLoop_prog_marker (marker : String) (post : List String)
    (hm : marker ∈ programming_indicators) :
    ∀ (pre : List String) (p m : Bool),
      (∀ f ∈ pre, f ∉ music_production_indicators) →
      (classifyLoop (pre ++ marker :: post) p m).1 = true := by
  intro pre
  induction pre with
  | nil =>
    intro p m _
    simp [classifyLoop, if_pos hm]
  | cons f rest ih =>
    intro p m hpre
    rw [List.cons_append]
    show (classifyLoop (f :: (rest ++ marker :: post)) p m).1 = true
    by_cases h1 : f ∈ programming_indicators
    · simp [classifyLoop, if_pos h1]
    · have h2 : f ∉ music_production_indicators := hpre f (List.mem_cons_self f rest)
      have hrest : ∀ g ∈ rest, g ∉ music_production_indicators :=
        fun g hg => hpre g (List.mem_cons_of_mem f hg)
      simp only [classifyLoop, if_neg h1, if_neg h2]
      cases hx : extension f with
      | none => exact ih p m hrest
      | some e =>
        simp only []
        split
        · rename_i hcond
          exact (Bool.and_eq_true _ _).mp hcond |>.1
        · exact ih _ _ hrest

/-- On a marker-free listing the scan accumulates exactly the two
extension-signal flags. -/
theorem classifyLoop_no_markers :
    ∀ (l : List String),
      (∀ f ∈ l, f ∉ programming_indicators ∧ f ∉ music_production_indicators) →
      ∀ p m, classifyLoop l p m =
        (p || l.any (hasExtSignal prog_ext_signals),
         m || l.any (hasExtSignal music_ext_signals)) := by
  intro l
  induction l with
  | nil => intro _ p m; simp [classifyLoop]
  | cons f rest ih =>
    intro hl p m
    have h1 := (hl f (List.mem_cons_self f rest)).1
    have h2 := (hl f (List.mem_cons_self f rest)).2
    have hrest : ∀ g ∈ rest, g ∉ programming_indicators ∧ g ∉ music_production_indicators :=
      fun g hg => hl g (List.mem_cons_of_mem f hg)
    simp only [classifyLoop, if_neg h1, if_neg h2]
    cases hx : extension f with
    | none =>
      have hp : hasExtSignal prog_ext_signals f = false := by simp [hasExtSignal, hx]
      have hq : hasExtSignal music_ext_signals f = false := by simp [hasExtSignal, hx]
      rw [ih hrest p m, List.any_cons, List.any_cons, hp, hq]
      simp
    | some e =>
      have hp : hasExtSignal prog_ext_signals f = decide (lowerStr e ∈ prog_ext_signals) := by
        simp [hasExtSignal, hx]
      have hq : hasExtSignal music_ext_signals f = decide (lowerStr e ∈ music_ext_signals) := by
        simp [hasExtSignal, hx]
      simp only []
      split
      · rename_i hcond
        obtain ⟨hc1, hc2⟩ := (Bool.and_eq_true _ _).mp hcond
        rw [List.any_cons, List.any_cons, hp, hq]
        refine Prod.ext ?_ ?_ <;> simp [← Bool.or_assoc, hc1, hc2]
      · rw [ih hrest _ _, List.any_cons, List.any_cons, hp, hq,
          Bool.or_assoc, Bool.or_assoc]

/-! Claim theorems. -/

/-- C1 (amended): for every directory listing, programming-type tagging
always contains the fixed tags "cli" and "software development", and
music-type tagging always contains the fixed tags "audio" and
"production", regardless of the directory's contents. -/
theorem fixed_tags_always_present (l : List String) :
    "cli" ∈ generate_tags l "programming" ∧
    "software development" ∈ generate_tags l "programming" ∧
    "audio" ∈ generate_tags l "music" ∧
    "production" ∈ generate_tags l "music" := by
  have hp : rawTags l "programming" = generate_programming_tags l := rfl
  have hm : rawTags l "music" = generate_music_tags l := rfl
  refine ⟨?_, ?_, ?_, ?_⟩ <;> rw [mem_generate_tags]
  · rw [hp]; unfold generate_programming_tags; simp
  · rw [hp]; unfold generate_programming_tags; simp
  · rw [hm]; unfold generate_music_tags; simp
  · rw [hm]; unfold generate_music_tags; simp

/-- C1 (counterexample): the empty directory's programming tag list is
exactly ["cli", "software development"]; it does not contain a
"command-line" tag. -/
theorem command_line_tag_absent :
    "command-line" ∉ generate_tags [] "programming" ∧
    generate_tags [] "programming" = ["cli", "software development"] := by
  decide

/-- C2: the directory with immediate entries project.rpp, kick.wav and
snare.mp3 classifies as music, but its tag list is exactly
["MP3", "WAV", "audio", "production"]: the rpp extension is not among the
recognized audio formats, so no "RPP" tag is produced, contradicting the
claim and the repository's own tests. -/
theorem reaper_project_dir_lacks_rpp_tag :
    generate_project_type ["project.rpp", "kick.wav", "snare.mp3"] = "music" ∧
    generate_tags ["project.rpp", "kick.wav", "snare.mp3"] "music" =
      ["MP3", "WAV", "audio", "production"] ∧
    "RPP" ∉ generate_tags ["project.rpp", "kick.wav", "snare.mp3"] "music" := by
  decide

/-- C3: a file whose name contains "reaper" yields the lowercase tag
"reaper", exactly as stored in the DAW table, and not the canonical
display name "Reaper" that the claim and the repository's tests expect. -/
theorem daw_tag_is_lowercase :
    generate_music_tags ["reaper song.rpp"] = ["reaper", "audio", "production"] ∧
    "reaper" ∈ generate_music_tags ["reaper song.rpp"] ∧
    "Reaper" ∉ generate_music_tags ["reaper song.rpp"] := by
  decide

/-- C4: for every directory listing and every project type, the tag list
returned by generate_tags has no duplicate entries and is sorted ascending
in the lexicographic order. -/
theorem generate_tags_nodup_sorted (l : List String) (pt : String) :
    (generate_tags l pt).Nodup ∧ List.Sorted strle (generate_tags l pt) := by
  constructor
  · exact ((List.perm_insertionSort strle _).nodup_iff).mpr (List.nodup_dedup _)
  · exact List.sorted_insertionSort strle _

/-- C5: for every directory listing containing Cargo.toml, programming-type
tag generation includes the tag "rust", whatever the other entries are. -/
theorem cargo_manifest_forces_rust_tag (l : List String) (h : "Cargo.toml" ∈ l) :
    "rust" ∈ generate_programming_tags l ∧ "rust" ∈ generate_tags l "programming" := by
  have h1 : "rust" ∈ generate_programming_tags l := by
    unfold generate_programming_tags
    rw [if_pos h]
    simp
  refine ⟨h1, ?_⟩
  rw [mem_generate_tags]
  exact h1

/-- C5 witness: instantiated at the listing containing only Cargo.toml. -/
theorem cargo_manifest_forces_rust_tag_witness :
    "Cargo.toml" ∈ (["Cargo.toml"] : List String) ∧
    ("rust" ∈ generate_programming_tags ["Cargo.toml"] ∧
     "rust" ∈ generate_tags ["Cargo.toml"] "programming") :=
  ⟨by decide, cargo_manifest_forces_rust_tag ["Cargo.toml"] (by decide)⟩

/-- C6 (amended): the push-URL lookup is total over the Option type and
every failure path yields none: no .git entry, tool not spawnable,
non-zero exit of the remotes query, no remotes listed, tool not spawnable
for the push-URL query, or non-zero exit of the push-URL query. A
successful push-URL query returns its trimmed output, even when that
output is empty. -/
theorem lookup_push_url_failure_paths (env : GitEnv) :
    (env.gitDirExists = false → extract_git_push_url env = none) ∧
    (env.remotesCmd = none → extract_git_push_url env = none) ∧
    (∀ out, env.remotesCmd = some out → out.success = false →
      extract_git_push_url env = none) ∧
    (∀ out, env.remotesCmd = some out → rustLines out.stdout = [] →
      extract_git_push_url env = none) ∧
    (∀ out r rest, env.remotesCmd = some out → out.success = true →
      rustLines out.stdout = r :: rest → env.pushUrlCmd r = none →
      extract_git_push_url env = none) ∧
    (∀ out r rest o2, env.remotesCmd = some out → out.success = true →
      rustLines out.stdout = r :: rest → env.pushUrlCmd r = some o2 →
      o2.success = false → extract_git_push_url env = none) ∧
    (∀ out r rest o2, env.gitDirExists = true → env.remotesCmd = some out →
      out.success = true → rustLines out.stdout = r :: rest →
      env.pushUrlCmd r = some o2 → o2.success = true →
      extract_git_push_url env = some (rustTrim o2.stdout)) := by
  obtain ⟨g, rc, pu⟩ := env
  cases g with
  | false =>
    refine ⟨fun _ => rfl, fun _ => rfl, fun _ _ _ => rfl, fun _ _ _ => rfl,
      fun _ _ _ _ _ _ _ => rfl, fun _ _ _ _ _ _ _ _ _ => rfl, ?_⟩
    intro _ _ _ _ hg
    exact absurd hg (by simp)
  | true =>
    refine ⟨fun hg => absurd hg (by simp), ?_, ?_, ?_, ?_, ?_, ?_⟩
    · intro hrc
      have h : rc = none := hrc
      subst h
      rfl
    · intro out hrc hs
      have h : rc = some out := hrc
      subst h
      simp [extract_git_push_url, hs]
    · intro out hrc hl
      have h : rc = some out := hrc
      subst h
      simp [extract_git_push_url, hl]
    · intro out r rest hrc hs hl hp
      have h : rc = some out := hrc
      subst h
      have h2 : pu r = none := hp
      simp [extract_git_push_url, hs, hl, h2]
    · intro out r rest o2 hrc hs hl hp ho
      have h : rc = some out := hrc
      subst h
      have h2 : pu r = some o2 := hp
      simp [extract_git_push_url, hs, hl, h2, ho]
    · intro out r rest o2 _ hrc hs hl hp ho
      have h : rc = some out := hrc
      subst h
      have h2 : pu r = some o2 := hp
      simp [extract_git_push_url, hs, hl, h2, ho]

/-- C6 witness: a directory without a .git entry yields none. -/
theorem lookup_push_url_failure_paths_witness :
    extract_git_push_url ⟨false, none, fun _ => none⟩ = none :=
  (lookup_push_url_failure_paths ⟨false, none, fun _ => none⟩).1 rfl

/-- C6 (counterexample): when the push-URL query exits successfully with
empty output, the lookup returns some empty string, not none, against the
claim that no output from the push-URL query results in nothing. -/
theorem push_url_empty_output_returns_some :
    extract_git_push_url
      ⟨true, some ⟨true, "origin\n", ""⟩, fun _ => some ⟨true, "", ""⟩⟩ = some "" ∧
    (some "" : Option String) ≠ none := by
  exact ⟨rfl, by simp⟩

/-- C7: a listing holding a programming marker classifies as programming,
whatever else it holds, provided no music marker precedes that marker in
enumeration order. -/
theorem prog_marker_classifies_programming (pre post : List String) (marker : String)
    (hm : marker ∈ programming_indicators)
    (hpre : ∀ f ∈ pre, f ∉ music_production_indicators) :
    generate_project_type (pre ++ marker :: post) = "programming" := by
  have h := classifyLoop_prog_marker marker post hm pre false false hpre
  unfold generate_project_type
  simp [h]

/-- C7 witness: instantiated at the listing containing only Cargo.toml. -/
theorem prog_marker_classifies_programming_witness :
    ("Cargo.toml" ∈ programming_indicators ∧
     ∀ f ∈ ([] : List String), f ∉ music_production_indicators) ∧
    generate_project_type ([] ++ "Cargo.toml" :: []) = "programming" :=
  ⟨⟨by decide, by simp⟩,
   prog_marker_classifies_programming [] [] "Cargo.toml" (by decide) (by simp)⟩

/-- C8: a marker-free listing holding both a recognized programming
extension and a recognized music extension classifies as programming,
because the programming flag is evaluated first in the final decision. -/
theorem both_extension_signals_classify_programming (l : List String)
    (hmarkers : ∀ f ∈ l, f ∉ programming_indicators ∧ f ∉ music_production_indicators)
    (hp : ∃ f ∈ l, hasExtSignal prog_ext_signals f = true)
    (hmu : ∃ f ∈ l, hasExtSignal music_ext_signals f = true) :
    generate_project_type l = "programming" := by
  have hany : l.any (hasExtSignal prog_ext_signals) = true := List.any_eq_true.mpr hp
  unfold generate_project_type
  rw [classifyLoop_no_markers l hmarkers false false]
  simp [hany]

/-- C8 witness: instantiated at the listing main.rs, kick.wav. -/
theorem both_extension_signals_classify_programming_witness :
    ((∀ f ∈ (["main.rs", "kick.wav"] : List String),
        f ∉ programming_indicators ∧ f ∉ music_production_indicators) ∧
     (∃ f ∈ (["main.rs", "kick.wav"] : List String),
        hasExtSignal prog_ext_signals f = true) ∧
     (∃ f ∈ (["main.rs", "kick.wav"] : List String),
        hasExtSignal music_ext_signals f = true)) ∧
    generate_project_type ["main.rs", "kick.wav"] = "programming" :=
  ⟨⟨by decide, by decide, by decide⟩,
   both_extension_signals_classify_programming ["main.rs", "kick.wav"]
     (by decide) (by decide) (by decide)⟩

/-- C9: every tag in the music tag list that comes from the audio format
scan is one of the five uppercase audio formats, and no music tag is ever
an uppercased DAW project-file extension such as RPP, FLP, LOGIC or
STUDIOONE. -/
theorem music_extension_tags_closed (l : List String) (t : String)
    (ht : t ∈ generate_music_tags l) :
    (t ∈ audio_format_set l →
      t ∈ (["WAV", "MP3", "FLAC", "OGG", "AIFF"] : List String)) ∧
    t ∉ (["RPP", "FLP", "LOGIC", "STUDIOONE"] : List String) := by
  have hfmt : ∀ s : String, s ∈ audio_format_set l →
      s ∈ (["WAV", "MP3", "FLAC", "OGG", "AIFF"] : List String) := by
    intro s hs
    obtain ⟨ae, hae, rfl⟩ := mem_audio_format_set hs
    simp only [audio_extensions, List.mem_cons, List.not_mem_nil, or_false] at hae
    rcases hae with rfl | rfl | rfl | rfl | rfl <;> decide
  refine ⟨hfmt t, ?_⟩
  unfold generate_music_tags at ht
  rcases List.mem_append.mp ht with h12 | hfix
  · rcases List.mem_append.mp h12 with ha | hd
    · have hu := hfmt t ha
      simp only [List.mem_cons, List.not_mem_nil, or_false] at hu
      rcases hu with rfl | rfl | rfl | rfl | rfl <;> decide
    · have hdw := mem_daw_set hd
      simp only [daws, List.mem_cons, List.not_mem_nil, or_false] at hdw
      rcases hdw with rfl | rfl | rfl | rfl | rfl <;> decide
  · simp only [List.mem_cons, List.not_mem_nil, or_false] at hfix
    rcases hfix with rfl | rfl <;> decide

/-- C9 witness: instantiated at the listing kick.wav and the tag WAV. -/
theorem music_extension_tags_closed_witness :
    "WAV" ∈ generate_music_tags ["kick.wav"] ∧
    (("WAV" ∈ audio_format_set ["kick.wav"] →
        "WAV" ∈ (["WAV", "MP3", "FLAC", "OGG", "AIFF"] : List String)) ∧
     "WAV" ∉ (["RPP", "FLP", "LOGIC", "STUDIOONE"] : List String)) :=
  ⟨by decide, music_extension_tags_closed ["kick.wav"] "WAV" (by decide)⟩

/-- C10: for a fixed listing and type, sorting after set deduplication
erases the arbitrary set-iteration order: any two enumerations of the
deduplicated raw tags sort to the same list, which is the generate_tags
output. -/
theorem generate_tags_deterministic (l : List String) (pt : String)
    (v1 v2 : List String)
    (h1 : v1.Perm (rawTags l pt).dedup) (h2 : v2.Perm (rawTags l pt).dedup) :
    List.insertionSort strle v1 = List.insertionSort strle v2 ∧
    List.insertionSort strle v1 = generate_tags l pt := by
  have key : ∀ v : List String, v.Perm (rawTags l pt).dedup →
      List.insertionSort strle v = List.insertionSort strle (rawTags l pt).dedup := by
    intro v hv
    exact List.eq_of_perm_of_sorted
      ((List.perm_insertionSort strle v).trans
        (hv.trans (List.perm_insertionSort strle _).symm))
      (List.sorted_insertionSort strle v)
      (List.sorted_insertionSort strle _)
  exact ⟨by rw [key v1 h1, key v2 h2], key v1 h1⟩

/-- C10 witness: two opposite enumerations of the deduplicated raw tags of
the listing a.rs sort identically to the generate_tags output. -/
theorem generate_tags_deterministic_witness :
    ((["rust", "cli", "software development"] : List String).Perm
        (rawTags ["a.rs"] "programming").dedup ∧
     (["software development", "cli", "rust"] : List String).Perm
        (rawTags ["a.rs"] "programming").dedup) ∧
    (List.insertionSort strle ["rust", "cli", "software development"] =
        List.insertionSort strle ["software development", "cli", "rust"] ∧
     List.insertionSort strle ["rust", "cli", "software development"] =
        generate_tags ["a.rs"] "programming") :=
  ⟨⟨by decide, by decide⟩,
   generate_tags_deterministic ["a.rs"] "programming" _ _ (by decide) (by decide)⟩

end Tagger
